import Mathlib

/-!
Shallow embedding of the spatial-query core of the point_cloud_viewer
repository, covering:

* `src/src/geometry/web_mercator_rect.rs` (`WebMercatorRect`),
* `src/xray/src/lib.rs` (`Meta`, `from_proto`, `to_proto`,
  `get_nodes_for_level`),
* `src/octree_web_viewer/src/state.rs` (`OctreeKeyParams`, `AppState`).

Rust `String` values are embedded as `List Char` (the character sequence of
the string), `f32`/`f64` coordinates as `ℚ` (the claims under verification
never depend on rounding, and all geometric decisions are delegated to the
abstract view-volume relation test that models the external `collision`
crate), and fallible functions return `Except`.  Functions of this
repository that live outside the provided sources (the `quadtree` crate,
the Web-Mercator coordinate conversion) are modelled from the spec and
marked as such in their doc comments.
-/

/-- Character-sequence embedding of a Rust `String`. -/
abbrev Str := List Char

/-- The character sequence of a Lean string literal. -/
def str (s : String) : Str := s.data

namespace Merc

/-- A 2-D vector of `f64` coordinates (`nalgebra::Vector2<S>`), embedded
over `ℚ`. -/
structure Vec2 where
  x : ℚ
  y : ℚ
deriving DecidableEq, Repr

/-- Component-wise infimum, `nalgebra::inf`. -/
def inf2 (a b : Vec2) : Vec2 := ⟨min a.x b.x, min a.y b.y⟩

/-- Component-wise supremum, `nalgebra::sup`. -/
def sup2 (a b : Vec2) : Vec2 := ⟨max a.x b.x, max a.y b.y⟩

/-- A 3-D point (`nalgebra::Point3<S>`), embedded over `ℚ`. -/
structure Point3q where
  x : ℚ
  y : ℚ
  z : ℚ
deriving DecidableEq, Repr

/-- Modelled from the spec: the maximum supported Web-Mercator zoom level
(`MAX_ZOOM` of `src/math/web_mercator.rs`, which is not among the provided
sources). -/
def MAX_ZOOM : Nat := 23

/-- Modelled from the spec: the pixel size of one Web-Mercator tile. -/
def TILE_SIZE : ℚ := 256

/-- A Web-Mercator coordinate (`WebMercatorCoord`, from
`src/math/web_mercator.rs`, not among the provided sources), stored as a
bounded tile coordinate normalized to zoom 0. -/
structure WebMercatorCoord where
  v : Vec2
deriving DecidableEq, Repr

/-- Modelled from the spec: `WebMercatorCoord::from_zoomed_coordinate`
returns `None` when the zoom exceeds `MAX_ZOOM` or the coordinate is out of
bounds for that zoom level, and otherwise normalizes the coordinate to a
bounded tile coordinate. -/
def from_zoomed_coordinate (c : Vec2) (z : Nat) : Option WebMercatorCoord :=
  if z > MAX_ZOOM then
    none
  else if 0 ≤ c.x ∧ c.x ≤ TILE_SIZE * 2 ^ z ∧ 0 ≤ c.y ∧ c.y ≤ TILE_SIZE * 2 ^ z then
    some ⟨⟨c.x / 2 ^ z, c.y / 2 ^ z⟩⟩
  else
    none

/-- `WebMercatorRect`: a non-rotated rectangle on a Web-Mercator map,
stored as its north-west and south-east corners. -/
structure WebMercatorRect where
  north_west : WebMercatorCoord
  south_east : WebMercatorCoord
deriving DecidableEq, Repr

/-- `WebMercatorRect::from_zoomed_coordinates`: normalizes the two input
points with component-wise `inf`/`sup` and converts each to a bounded tile
coordinate at zoom `z`. -/
def WebMercatorRect.from_zoomed_coordinates (mi ma : Vec2) (z : Nat) :
    Option WebMercatorRect :=
  (from_zoomed_coordinate (inf2 mi ma) z).bind fun north_west =>
    (from_zoomed_coordinate (sup2 mi ma) z).map fun south_east =>
      { north_west := north_west, south_east := south_east }

/-- The external bidirectional geographic conversion (`nav_types`
ECEF/WGS84 and `WebMercatorCoord::from_lat_lng`), treated per the spec as
an exact and total black box. -/
structure GeoConv where
  ecefToWgs : Point3q → ℚ × ℚ
  wgsToWmc : ℚ × ℚ → WebMercatorCoord

/-- `nalgebra::partial_le` on Web-Mercator coordinates: component-wise
less-or-equal. -/
def partial_le (a b : WebMercatorCoord) : Bool :=
  decide (a.v.x ≤ b.v.x) && decide (a.v.y ≤ b.v.y)

/-- `nalgebra::partial_lt` on Web-Mercator coordinates: component-wise
strictly-less. -/
def partial_lt (a b : WebMercatorCoord) : Bool :=
  decide (a.v.x < b.v.x) && decide (a.v.y < b.v.y)

/-- `WebMercatorRect::contains` (the `PointCulling` impl): convert the 3-D
point to geographic coordinates, then to Web Mercator, and test
`partial_le(north_west, w) && partial_lt(w, south_east)`. -/
def WebMercatorRect.contains (gc : GeoConv) (r : WebMercatorRect) (p : Point3q) : Bool :=
  let ll := gc.ecefToWgs p
  let wmc := gc.wgsToWmc ll
  partial_le r.north_west wmc && partial_lt wmc r.south_east

end Merc

namespace Xray

/-- Modelled from the spec: `quadtree::NodeId` — a node address in the
hierarchical index, an unsigned level (0 = root) and an unsigned position
index among all nodes of that level, with children of `(level, index)`
having ids `(level + 1, index * 4 + c)` for `c` in `[0, 4)`. -/
structure NodeId where
  level : Nat
  index : Nat
deriving DecidableEq, Repr

/-- Modelled from the spec: the root node id. -/
def NodeId.root : NodeId := ⟨0, 0⟩

/-- Modelled from the spec: the lossless string form of a `NodeId`
(`node.id.to_string()`): the character for one base-4 digit. -/
def digitChar4 : Nat → Char
  | 0 => '0'
  | 1 => '1'
  | 2 => '2'
  | _ => '3'

/-- Modelled from the spec: the base-4 digit string of `index`, one digit
per ancestor step (`level` digits, most significant first). -/
def idDigits : Nat → Nat → Str
  | 0, _ => []
  | l + 1, i => idDigits l (i / 4) ++ [digitChar4 (i % 4)]

/-- Modelled from the spec: `NodeId::to_string`, a lossless serialized
form, `r` followed by the base-4 path digits. -/
def NodeId.toStr (id : NodeId) : Str := 'r' :: idDigits id.level id.index

/-- `quadtree::Rect`: an axis-aligned square, minimum corner plus edge
length. -/
structure Rect where
  min : ℚ × ℚ
  edge_length : ℚ
deriving DecidableEq, Repr

/-- `Rect::max`. -/
def Rect.max (r : Rect) : ℚ × ℚ := (r.min.1 + r.edge_length, r.min.2 + r.edge_length)

/-- `quadtree::Node`: a node id together with its bounding rectangle. -/
structure Node where
  id : NodeId
  bounding_rect : Rect
deriving DecidableEq, Repr

/-- Modelled from the spec: `Node::from_node_id_and_root_bounding_rect`. -/
def Node.from_node_id_and_root_bounding_rect (id : NodeId) (rect : Rect) : Node :=
  ⟨id, rect⟩

/-- Modelled from the spec: `quadtree::ChildIndex::from_u8`. -/
def ChildIndex.from_u8 (i : Nat) : Fin 4 := ⟨i % 4, Nat.mod_lt _ (by omega)⟩

/-- Modelled from the spec: `Node::get_child` — child `c` of node
`(level, index)` has id `(level + 1, index * 4 + c)` and the quadrant of
the parent rectangle obtained by halving the edge length. -/
def Node.get_child (n : Node) (c : Fin 4) : Node :=
  let half := n.bounding_rect.edge_length / 2
  let dx := if c.val % 2 = 1 then half else 0
  let dy := if c.val / 2 = 1 then half else 0
  { id := ⟨n.id.level + 1, n.id.index * 4 + c.val⟩,
    bounding_rect := ⟨(n.bounding_rect.min.1 + dx, n.bounding_rect.min.2 + dy), half⟩ }

/-- The `level()` accessor of a node (`Node::level`). -/
def Node.level (n : Node) : Nat := n.id.level

/-- `CURRENT_VERSION` of the xray meta encoding. -/
def CURRENT_VERSION : Int := 3

/-- `proto::Vector2d` (f64 coordinates). -/
structure ProtoVector2d where
  x : ℚ
  y : ℚ
deriving DecidableEq, Repr

/-- `proto::Vector2f` (f32 coordinates, the deprecated lower-precision
representation). -/
structure ProtoVector2f where
  x : ℚ
  y : ℚ
deriving DecidableEq, Repr

/-- The bounding-rect message of the persisted meta: an optional
double-precision minimum plus edge length, and the deprecated
single-precision fields. Unset sub-messages read as their defaults. -/
structure ProtoRect where
  min : Option ProtoVector2d
  edge_length : ℚ
  deprecated_min : ProtoVector2f
  deprecated_edge_length : ℚ
deriving DecidableEq, Repr

/-- The protobuf default value of the bounding-rect message. -/
def ProtoRect.default : ProtoRect := ⟨none, 0, ⟨0, 0⟩, 0⟩

/-- `proto::NodeId`: level as u32, index as u64. -/
structure ProtoNodeId where
  level : Nat
  index : Nat
deriving DecidableEq, Repr

/-- `proto::Meta`, the persisted meta message. An unset `bounding_rect`
field reads as `ProtoRect.default` through `get_bounding_rect`. -/
structure ProtoMeta where
  version : Int
  nodes : List ProtoNodeId
  bounding_rect : Option ProtoRect
  tile_size : Nat
  deepest_level : Nat
deriving DecidableEq, Repr

/-- `proto.get_bounding_rect()`: the field, or the protobuf default when
unset. -/
def ProtoMeta.get_bounding_rect (p : ProtoMeta) : ProtoRect :=
  p.bounding_rect.getD ProtoRect.default

/-- `Meta`: the in-memory description of one dataset's index. Rust stores
`level` in a `u8`, `index` in a `u64`, `tile_size` in a `u32`. The
`FnvHashSet<NodeId>` is embedded as the sequence of its elements; all uses
below go through membership, so the sequence order never matters. -/
structure Meta where
  nodes : List NodeId
  bounding_rect : Rect
  tile_size : Nat
  deepest_level : Nat
deriving DecidableEq

/-- The outcome of a Rust function that may `panic!`: either a value or an
aborted process carrying the panic message. -/
inductive RustResult (α : Type) where
  | ok (a : α)
  | panicked (msg : Str)
deriving DecidableEq

/-- `Meta::from_proto`: versions 2 (one generation old, migrated on read)
and `CURRENT_VERSION` are accepted; any other version hits the `panic!`
arm. The bounding rectangle is taken from the double-precision `min`
field when present, otherwise from the deprecated single-precision
fields. `n.level as u8` truncates to the low 8 bits. -/
def Meta.from_proto (proto : ProtoMeta) : RustResult Meta :=
  if proto.version = 2 ∨ proto.version = CURRENT_VERSION then
    let bounding_rect := proto.get_bounding_rect
    let p :=
      match bounding_rect.min with
      | none =>
        let deprecated_min := bounding_rect.deprecated_min
        ((deprecated_min.x, deprecated_min.y), bounding_rect.deprecated_edge_length)
      | some v => ((v.x, v.y), bounding_rect.edge_length)
    .ok
      { nodes := proto.nodes.map fun n => NodeId.mk (n.level % 256) n.index,
        bounding_rect := ⟨p.1, p.2⟩,
        tile_size := proto.tile_size,
        deepest_level := proto.deepest_level % 256 }
  else
    .panicked (str "Invalid version. We only support 3.")

/-- `Meta::to_proto`: writes version, tile size, deepest level and the node
list; the `set_bounding_rect` line is commented out in the source, so the
bounding-rect field is left unset. -/
def Meta.to_proto (m : Meta) : ProtoMeta :=
  { version := CURRENT_VERSION,
    nodes := m.nodes.map fun id => ProtoNodeId.mk id.level id.index,
    bounding_rect := none,
    tile_size := m.tile_size,
    deepest_level := m.deepest_level }

/-- The serialized bounding rectangle of an emitted node
(`xray::BoundingRect`). -/
structure BoundingRect where
  min_x : ℚ
  min_y : ℚ
  edge_length : ℚ
deriving DecidableEq, Repr

/-- `xray::NodeMeta`: one emitted traversal result, the node id in its
string form together with the node's bounding rectangle. -/
structure NodeMeta where
  id : Str
  bounding_rect : BoundingRect
deriving DecidableEq, Repr

/-- The `NodeMeta` the traversal emits for a visited node. -/
def nodeMetaOf (n : Node) : NodeMeta :=
  { id := n.id.toStr,
    bounding_rect :=
      { min_x := n.bounding_rect.min.1,
        min_y := n.bounding_rect.min.2,
        edge_length := n.bounding_rect.edge_length } }

/-- `collision::Relation`: the three-way result of a containment /
intersection test. -/
inductive Relation where
  | In
  | Cross
  | Out
deriving DecidableEq, Repr

/-- An axis-aligned 3-D box (`collision::Aabb3`), over `ℚ`. -/
structure Aabb3 where
  min : ℚ × ℚ × ℚ
  max : ℚ × ℚ × ℚ
deriving DecidableEq, Repr

/-- The Aabb3 the traversal builds for a node: the node's 2-D bounding
rectangle extruded to the fixed vertical slab `[-0.1, 0.1]`. -/
def nodeAabb (n : Node) : Aabb3 :=
  { min := (n.bounding_rect.min.1, n.bounding_rect.min.2, -(1 / 10)),
    max := ((n.bounding_rect.max).1, (n.bounding_rect.max).2, 1 / 10) }

/-- The external `collision` crate's frustum machinery, abstracted: a
frustum type `F`, `Frustum::from_matrix4` (which may fail on matrices that
have no frustum), and `Frustum::contains` for Aabb3. The matrix is the
row of 16 entries the caller supplies. -/
structure FrustumModel (F : Type) where
  from_matrix4 : List ℚ → Option F
  contains : F → Aabb3 → Relation

/-- The two error strings `get_nodes_for_level` can produce. -/
inductive XrayErr where
  | badMatrixLength (got : Nat)
  | badFrustum
deriving DecidableEq, Repr

/-- One full processing pass of the `while let Some(node) = open.pop()`
loop of `get_nodes_for_level`, with an explicit fuel so the loop is total:
pop a node; skip it (with its whole subtree) when the view relation is
`Out` or its id is not in the existence set; emit it when it sits at the
target level; otherwise push its four children. Children are pushed in
order 0..4, so child 3 is popped first, exactly as with the Rust `Vec`
stack. -/
def traverseLoop {F : Type} (fm : FrustumModel F) (frustum : F) (meta : Meta)
    (level : Nat) : Nat → List Node → List NodeMeta → List NodeMeta
  | 0, _, result => result
  | _ + 1, [], result => result
  | fuel + 1, node :: stack, result =>
    if fm.contains frustum (nodeAabb node) = Relation.Out ∨ node.id ∉ meta.nodes then
      traverseLoop fm frustum meta level fuel stack result
    else if node.level = level then
      traverseLoop fm frustum meta level fuel stack (result ++ [nodeMetaOf node])
    else
      traverseLoop fm frustum meta level fuel
        ((List.range 4).foldl (fun s i => node.get_child (ChildIndex.from_u8 i) :: s) stack)
        result

/-- An upper bound on the number of loop iterations needed to process one
node whose level is `d` below the target level. -/
def loopCost : Nat → Nat
  | 0 => 1
  | d + 1 => 1 + 4 * loopCost d

/-- `Meta::get_nodes_for_level`: validate that the matrix has 16 entries,
build the frustum (an input-validation error when the matrix yields none),
then run the depth-first stack traversal from the root node over the
dataset's global bounding rectangle. `loopCost level` iterations always
suffice starting from the root. -/
def Meta.get_nodes_for_level {F : Type} (fm : FrustumModel F) (m : Meta)
    (level : Nat) (matrix_entries : List ℚ) : Except XrayErr (List NodeMeta) :=
  if matrix_entries.length ≠ 4 * 4 then
    .error (.badMatrixLength matrix_entries.length)
  else
    match fm.from_matrix4 matrix_entries with
    | none => .error .badFrustum
    | some frustum =>
      .ok (traverseLoop fm frustum m level (loopCost level)
        [Node.from_node_id_and_root_bounding_rect NodeId.root m.bounding_rect] [])

end Xray

namespace Viewer

/-- The abstract `octree::Octree` handle type and the error type
(`PointsViewerError`) are parameters of the web-viewer embedding; the
loaded handle is reference-counted in Rust (`Arc`), so two handles
referencing the same underlying data are embedded as equal values. -/
structure OctreeKeyParams where
  prefixStr : Str
  suffixStr : Str
deriving DecidableEq, Repr

/-- Whether a character sequence ends with the given character
(`str::ends_with(char)`). -/
def endsWithChar (s : Str) (c : Char) : Bool :=
  match s.reverse with
  | [] => false
  | d :: _ => d = c

/-- Whether a character sequence starts with the given character
(`str::starts_with(char)`). -/
def startsWithChar (s : Str) (c : Char) : Bool :=
  match s with
  | [] => false
  | d :: _ => d = c

/-- The address string `get_octree_address` builds:
`format!("{}{}{}{}{}", prefix, join_prefix, octree_key, join_suffix, suffix)`. -/
def addressStr (p : OctreeKeyParams) (octree_key : Str) : Str :=
  let join_prefix : Str := if endsWithChar p.prefixStr '/' then [] else ['/']
  let join_suffix : Str := if startsWithChar p.suffixStr '/' then [] else ['/']
  p.prefixStr ++ join_prefix ++ octree_key ++ join_suffix ++ p.suffixStr

/-- `OctreeKeyParams::get_octree_address`: join the configured prefix, the
key and the configured suffix, inserting a `/` after the prefix unless the
prefix already ends with one, and before the suffix unless the suffix
already starts with one. Always returns `Ok`. -/
def OctreeKeyParams.get_octree_address {E : Type} (p : OctreeKeyParams)
    (octree_key : Str) : Except E Str :=
  .ok (addressStr p octree_key)

/-- The shared application state: the octree cache table (a `HashMap`
embedded as an association list with insert-replaces-existing semantics),
the address join parameters, and the configured default octree id. -/
structure AppState (O : Type) where
  octree_map : List (Str × O)
  key_params : OctreeKeyParams
  init_octree_id : Str
deriving DecidableEq

/-- `HashMap::get` on the association-list embedding. -/
def mapGet {O : Type} (m : List (Str × O)) (k : Str) : Option O :=
  (m.find? fun e => decide (e.1 = k)).map fun e => e.2

/-- `HashMap::insert` on the association-list embedding: the new binding
replaces any existing binding of the same key. -/
def mapInsert {O : Type} (m : List (Str × O)) (k : Str) (v : O) : List (Str × O) :=
  (k, v) :: m.filter fun e => decide (e.1 ≠ k)

/-- The reserved-alias test of `load_octree`:
`octree_key.len() == 7 && octree_key.starts_with("init_id")`. -/
def aliasCond (octree_key : Str) : Bool :=
  octree_key.length = 7 && (str "init_id").isPrefixOf octree_key

/-- `AppState::insert_octree`, instrumented with the number of external
loader invocations it performs: resolve the storage address, invoke the
loader, and only on success insert the loaded handle into the cache table.
A loader failure propagates before the table is touched. -/
def AppState.insert_octree {O E : Type} (loader : Str → Except E O)
    (st : AppState O) (octree_id : Str) : Except E O × AppState O × Nat :=
  let octree_key := octree_id
  match st.key_params.get_octree_address (E := E) octree_key with
  | .error e => (.error e, st, 0)
  | .ok addr =>
    match loader addr with
    | .error e => (.error e, st, 1)
    | .ok octree =>
      (.ok octree, { st with octree_map := mapInsert st.octree_map octree_key octree }, 1)

/-- `AppState::load_octree`, instrumented with a loader-invocation count
and an explicit fuel: the reserved alias resolves to the configured
default id by a recursive call (the source recursion does not terminate
when the default id is itself the alias, which the exhausted-fuel value
`none` represents); otherwise a cache hit returns a clone of the stored
handle and a miss defers to `insert_octree`. -/
def AppState.load_octree {O E : Type} (loader : Str → Except E O) :
    Nat → AppState O → Str → Option (Except E O × AppState O × Nat)
  | 0, _, _ => none
  | fuel + 1, st, octree_id =>
    let octree_key := octree_id
    if aliasCond octree_key then
      AppState.load_octree loader fuel st st.init_octree_id
    else
      match mapGet st.octree_map octree_key with
      | some tree => some (.ok tree, st, 0)
      | none => some (st.insert_octree loader octree_key)

/-- The resolved cache key of a request: the reserved alias stands for the
configured default id, any other key stands for itself. -/
def resolveKey {O : Type} (st : AppState O) (key : Str) : Str :=
  if aliasCond key then st.init_octree_id else key

/-- The non-alias processing of a key: a cache hit returns a clone of the
stored handle without touching the loader, a miss defers to
`insert_octree`. This is the body `load_octree` runs after alias
resolution. -/
def AppState.load_direct {O E : Type} (loader : Str → Except E O)
    (st : AppState O) (key : Str) : Except E O × AppState O × Nat :=
  match mapGet st.octree_map key with
  | some tree => (.ok tree, st, 0)
  | none => st.insert_octree loader key

end Viewer

namespace Xray

/-- The list of the four children of a node in the order the stack pops
them (child 3 first), that is, the reversal of the push order `0..4`. -/
def kidsRev (n : Node) : List Node :=
  (List.range 4).foldl (fun s i => n.get_child (ChildIndex.from_u8 i) :: s) []

/-- The node reached from `n` by following a path of child indices. -/
def descend (n : Node) : List (Fin 4) → Node
  | [] => n
  | i :: q => descend (n.get_child i) q

/-- The base-4 value of a path of child indices, most significant digit
first: the offset of the reached node's index inside its ancestor's
subtree. -/
def pathVal (q : List (Fin 4)) : Nat := q.foldl (fun a i => a * 4 + i.val) 0

/-- The traversal keeps a node's subtree exactly when the view relation of
its box is not `Out` and its id is in the existence set. -/
def live {F : Type} (fm : FrustumModel F) (fr : F) (meta : Meta) (n : Node) : Prop :=
  fm.contains fr (nodeAabb n) ≠ Relation.Out ∧ n.id ∈ meta.nodes

/-- The per-subtree recursive reformulation of the stack loop: it emits
the same nodes as the loop does for one stack entry whose level is at
most `d` below the target level (children in pop order). -/
def collect {F : Type} (fm : FrustumModel F) (fr : F) (meta : Meta) (level : Nat)
    (d : Nat) (n : Node) : List NodeMeta :=
  if fm.contains fr (nodeAabb n) = Relation.Out ∨ n.id ∉ meta.nodes then []
  else if n.level = level then [nodeMetaOf n]
  else
    match d with
    | 0 => []
    | d + 1 => (kidsRev n).flatMap fun c => collect fm fr meta level d c

/-- A view-volume model whose relation test always answers `Cross`, and
which accepts every matrix: one concrete instantiation of the abstract
`collision` frustum interface. -/
def constCrossFM : FrustumModel Unit :=
  { from_matrix4 := fun _ => some (), contains := fun _ _ => Relation.Cross }

/-- Sixteen zero matrix entries. -/
def entries16 : List ℚ := List.replicate 16 0

end Xray

namespace Viewer

/-- Whether a character is the path separator. -/
def isSlash (c : Char) : Bool := c = '/'

/-- The string without its leading path separators. -/
def dropLeadingSlashes (s : Str) : Str := s.dropWhile isSlash

/-- The string without its trailing path separators. -/
def dropTrailingSlashes (s : Str) : Str := (s.reverse.dropWhile isSlash).reverse

/-- The number of leading path separators. -/
def leadingSlashCount (s : Str) : Nat := (s.takeWhile isSlash).length

/-- The number of trailing path separators. -/
def trailingSlashCount (s : Str) : Nat := (s.reverse.takeWhile isSlash).length

/-- The address the spec's join rule describes: the three parts joined with
exactly one separator at the prefix/key boundary and exactly one at the
key/suffix boundary, never zero and never two, regardless of existing
trailing or leading separators on any part. -/
def specJoinAddress (p k s : Str) : Str :=
  dropTrailingSlashes p ++ ['/'] ++ dropLeadingSlashes (dropTrailingSlashes k)
    ++ ['/'] ++ dropLeadingSlashes s

theorem takeWhile_head {q : Char → Bool} {c : Char} {t l : Str}
    (h : l.takeWhile q = c :: t) : q c = true :=
  List.mem_takeWhile_imp (by rw [h]; exact List.mem_cons_self c t)

theorem dropWhile_head {q : Char → Bool} {c : Char} {t : Str} :
    ∀ (l : Str), l.dropWhile q = c :: t → q c = false := by
  intro l
  induction l with
  | nil => intro h; simp at h
  | cons a l ih =>
    intro h
    rw [List.dropWhile_cons] at h
    by_cases hq : q a
    · exact ih (by simpa [hq] using h)
    · simp only [hq, if_neg, Bool.false_eq_true, ite_false, List.cons.injEq] at h
      rw [← h.1]
      simpa using hq

theorem tw_dw_split (q : Char → Bool) : ∀ l : Str, l.takeWhile q ++ l.dropWhile q = l := by
  intro l
  induction l with
  | nil => rfl
  | cons a l ih =>
    rw [List.takeWhile_cons, List.dropWhile_cons]
    by_cases hq : q a <;> simp [hq, ih]

theorem prefix_join (p : Str) (hp : trailingSlashCount p ≤ 1) (rest : Str) :
    p ++ ((if endsWithChar p '/' then ([] : Str) else ['/']) ++ rest)
      = dropTrailingSlashes p ++ ('/' :: rest) := by
  have hsplit := tw_dw_split isSlash p.reverse
  cases htw : p.reverse.takeWhile isSlash with
  | nil =>
    rw [htw, List.nil_append] at hsplit
    have hend : endsWithChar p '/' = false := by
      unfold endsWithChar
      cases hrev : p.reverse with
      | nil => rfl
      | cons d t =>
        have : isSlash d = false := dropWhile_head p.reverse (by rw [hsplit, hrev])
        simpa [isSlash] using this
    have hdts : dropTrailingSlashes p = p := by
      unfold dropTrailingSlashes
      rw [hsplit, List.reverse_reverse]
    rw [hend, hdts]
    simp
  | cons c t =>
    have hc : c = '/' := by simpa [isSlash] using takeWhile_head htw
    have ht : t = [] := by
      have := hp
      unfold trailingSlashCount at this
      rw [htw] at this
      simpa using this
    subst hc ht
    rw [htw] at hsplit
    have hrev : p.reverse = '/' :: p.reverse.dropWhile isSlash := hsplit.symm
    have hend : endsWithChar p '/' = true := by
      unfold endsWithChar
      rw [hrev]
      simp
    have hp' : p = dropTrailingSlashes p ++ ['/'] := by
      unfold dropTrailingSlashes
      conv_lhs => rw [← List.reverse_reverse p, hrev]
      simp
    rw [hend]
    conv_lhs => rw [hp']
    simp

theorem suffix_join (s : Str) (hs : leadingSlashCount s ≤ 1) :
    (if startsWithChar s '/' then ([] : Str) else ['/']) ++ s
      = '/' :: dropLeadingSlashes s := by
  have hsplit := tw_dw_split isSlash s
  cases htw : s.takeWhile isSlash with
  | nil =>
    rw [htw, List.nil_append] at hsplit
    have hstart : startsWithChar s '/' = false := by
      unfold startsWithChar
      cases hrev : s with
      | nil => rfl
      | cons d t =>
        have : isSlash d = false := dropWhile_head s (by rw [hsplit, hrev])
        simpa [isSlash] using this
    have hdls : dropLeadingSlashes s = s := hsplit
    rw [hstart, hdls]
    simp
  | cons c t =>
    have hc : c = '/' := by simpa [isSlash] using takeWhile_head htw
    have ht : t = [] := by
      have := hs
      unfold leadingSlashCount at this
      rw [htw] at this
      simpa using this
    subst hc ht
    rw [htw] at hsplit
    have hdec : s = '/' :: dropLeadingSlashes s := hsplit.symm
    have hstart : startsWithChar s '/' = true := by
      unfold startsWithChar
      rw [hdec]
      simp
    rw [hstart]
    conv_lhs => rw [hdec]
    simp

theorem mapGet_mapInsert_self {O : Type} (m : List (Str × O)) (k : Str) (v : O) :
    mapGet (mapInsert m k v) k = some v := by
  simp [mapGet, mapInsert, List.find?]

theorem load_octree_alias_step {O E : Type} (loader : Str → Except E O)
    (st : AppState O) (key : Str) (fuel : Nat) (hk : aliasCond key = true) :
    AppState.load_octree loader (fuel + 1) st key
      = AppState.load_octree loader fuel st st.init_octree_id := by
  rw [AppState.load_octree]
  simp [hk]

theorem load_octree_direct_step {O E : Type} (loader : Str → Except E O)
    (st : AppState O) (key : Str) (fuel : Nat) (hk : aliasCond key = false) :
    AppState.load_octree loader (fuel + 1) st key
      = some (AppState.load_direct loader st key) := by
  rw [AppState.load_octree]
  simp only [hk, Bool.false_eq_true, ite_false]
  unfold AppState.load_direct
  cases hm : mapGet st.octree_map key <;> simp [hm]

theorem load_direct_hit {O E : Type} (loader : Str → Except E O)
    (st : AppState O) (key : Str) (t : O)
    (hhit : mapGet st.octree_map key = some t) :
    AppState.load_direct loader st key = (.ok t, st, 0) := by
  simp [AppState.load_direct, hhit]

theorem load_direct_miss {O E : Type} (loader : Str → Except E O)
    (st : AppState O) (key : Str)
    (hmiss : mapGet st.octree_map key = none) :
    AppState.load_direct loader st key = st.insert_octree loader key := by
  simp [AppState.load_direct, hmiss]

theorem insert_octree_ok {O E : Type} (loader : Str → Except E O)
    (st : AppState O) (key : Str) (t : O)
    (hload : loader (addressStr st.key_params key) = .ok t) :
    st.insert_octree loader key
      = (.ok t, { st with octree_map := mapInsert st.octree_map key t }, 1) := by
  simp [AppState.insert_octree, OctreeKeyParams.get_octree_address, hload]

theorem insert_octree_err {O E : Type} (loader : Str → Except E O)
    (st : AppState O) (key : Str) (e : E)
    (hload : loader (addressStr st.key_params key) = .error e) :
    st.insert_octree loader key = (.error e, st, 1) := by
  simp [AppState.insert_octree, OctreeKeyParams.get_octree_address, hload]

theorem dls_eq_self {k : Str} (h : startsWithChar k '/' = false) :
    dropLeadingSlashes k = k := by
  unfold dropLeadingSlashes
  cases k with
  | nil => rfl
  | cons a t =>
    have ha : isSlash a = false := by
      unfold startsWithChar at h
      simpa [isSlash] using h
    rw [List.dropWhile_cons]
    simp [ha]

theorem dts_eq_self {k : Str} (h : endsWithChar k '/' = false) :
    dropTrailingSlashes k = k := by
  unfold dropTrailingSlashes
  cases hr : k.reverse with
  | nil =>
    have : k = [] := by rw [← List.reverse_reverse k, hr]; rfl
    simp [hr, this]
  | cons a t =>
    have ha : isSlash a = false := by
      unfold endsWithChar at h
      rw [hr] at h
      simpa [isSlash] using h
    have h2 : List.dropWhile isSlash (a :: t) = a :: t := by
      rw [List.dropWhile_cons]
      simp [ha]
    rw [h2, ← hr, List.reverse_reverse]

end Viewer

deriving instance DecidableEq for Except

namespace Xray

theorem loopCost_pos : ∀ d, 0 < loopCost d
  | 0 => by simp [loopCost]
  | d + 1 => by simp [loopCost]

theorem kidsRev_eq (n : Node) :
    kidsRev n = [n.get_child (ChildIndex.from_u8 3), n.get_child (ChildIndex.from_u8 2),
      n.get_child (ChildIndex.from_u8 1), n.get_child (ChildIndex.from_u8 0)] := rfl

theorem kids_push (n : Node) (stack : List Node) :
    (List.range 4).foldl (fun s i => n.get_child (ChildIndex.from_u8 i) :: s) stack
      = kidsRev n ++ stack := rfl

theorem mem_kidsRev {n c : Node} : c ∈ kidsRev n ↔ ∃ i : Fin 4, c = n.get_child i := by
  rw [kidsRev_eq]
  constructor
  · intro h
    simp only [List.mem_cons, List.not_mem_nil, or_false] at h
    rcases h with h | h | h | h <;> exact ⟨_, h⟩
  · rintro ⟨i, rfl⟩
    have h4 : i = ChildIndex.from_u8 3 ∨ i = ChildIndex.from_u8 2 ∨
        i = ChildIndex.from_u8 1 ∨ i = ChildIndex.from_u8 0 := by
      unfold ChildIndex.from_u8
      fin_cases i <;> simp
    rcases h4 with h | h | h | h <;> rw [h] <;> simp

theorem get_child_level (n : Node) (i : Fin 4) :
    (n.get_child i).id.level = n.id.level + 1 := rfl

theorem get_child_index (n : Node) (i : Fin 4) :
    (n.get_child i).id.index = n.id.index * 4 + i.val := rfl

theorem descend_level (q : List (Fin 4)) : ∀ n : Node,
    (descend n q).id.level = n.id.level + q.length := by
  induction q with
  | nil => intro n; simp [descend]
  | cons i q ih =>
    intro n
    simp only [descend]
    rw [ih, get_child_level, List.length_cons]
    omega

theorem pathVal_from (q : List (Fin 4)) : ∀ a : Nat,
    q.foldl (fun a i => a * 4 + i.val) a = a * 4 ^ q.length + pathVal q := by
  induction q with
  | nil => intro a; simp [pathVal]
  | cons i q ih =>
    intro a
    have hl : pathVal (i :: q) = i.val * 4 ^ q.length + pathVal q := by
      unfold pathVal
      show q.foldl _ (0 * 4 + i.val) = _
      rw [show 0 * 4 + i.val = i.val from by omega, ih i.val]
      rfl
    show q.foldl _ (a * 4 + i.val) = a * 4 ^ (q.length + 1) + pathVal (i :: q)
    rw [ih (a * 4 + i.val), hl, pow_succ]
    ring

theorem pathVal_lt (q : List (Fin 4)) : pathVal q < 4 ^ q.length := by
  induction q with
  | nil => simp [pathVal]
  | cons i q ih =>
    have hl : pathVal (i :: q) = i.val * 4 ^ q.length + pathVal q := by
      unfold pathVal
      show q.foldl _ (0 * 4 + i.val) = _
      rw [show 0 * 4 + i.val = i.val from by omega, pathVal_from]
      rfl
    rw [hl, List.length_cons, pow_succ]
    have hi : i.val + 1 ≤ 4 := by omega
    calc i.val * 4 ^ q.length + pathVal q < (i.val + 1) * 4 ^ q.length := by
          rw [Nat.add_mul, Nat.one_mul]; omega
      _ ≤ 4 ^ q.length * 4 := by
          rw [Nat.mul_comm (4 ^ q.length) 4]
          exact Nat.mul_le_mul_right _ hi

theorem descend_index (q : List (Fin 4)) : ∀ n : Node,
    (descend n q).id.index = n.id.index * 4 ^ q.length + pathVal q := by
  induction q with
  | nil => intro n; simp [descend, pathVal]
  | cons i q ih =>
    intro n
    have hl : pathVal (i :: q) = i.val * 4 ^ q.length + pathVal q := by
      unfold pathVal
      show q.foldl _ (0 * 4 + i.val) = _
      rw [show 0 * 4 + i.val = i.val from by omega, pathVal_from]
      rfl
    simp only [descend]
    rw [ih, get_child_index, hl, List.length_cons, pow_succ]
    ring

theorem idDigits_length : ∀ l i : Nat, (idDigits l i).length = l := by
  intro l
  induction l with
  | zero => intro i; rfl
  | succ l ih => intro i; simp [idDigits, ih]

theorem digitChar4_inj : ∀ a b : Nat, a < 4 → b < 4 → digitChar4 a = digitChar4 b → a = b := by
  intro a b ha hb
  interval_cases a <;> interval_cases b <;> decide

theorem idDigits_inj : ∀ l i j : Nat, i < 4 ^ l → j < 4 ^ l →
    idDigits l i = idDigits l j → i = j := by
  intro l
  induction l with
  | zero =>
    intro i j hi hj _
    simp [pow_zero] at hi hj
    omega
  | succ l ih =>
    intro i j hi hj h
    unfold idDigits at h
    have hlen : (idDigits l (i / 4)).length = (idDigits l (j / 4)).length := by
      rw [idDigits_length, idDigits_length]
    obtain ⟨h1, h2⟩ := List.append_inj h hlen
    have hdiv : ∀ k : Nat, k < 4 ^ (l + 1) → k / 4 < 4 ^ l := by
      intro k hk
      rw [pow_succ] at hk
      omega
    have e1 : i / 4 = j / 4 := ih _ _ (hdiv i hi) (hdiv j hj) h1
    have e2 : i % 4 = j % 4 := by
      have hc : digitChar4 (i % 4) = digitChar4 (j % 4) := by
        simpa using h2
      exact digitChar4_inj _ _ (Nat.mod_lt _ (by omega)) (Nat.mod_lt _ (by omega)) hc
    omega

theorem toStr_inj {a b : NodeId} (ha : a.index < 4 ^ a.level) (hb : b.index < 4 ^ b.level)
    (h : a.toStr = b.toStr) : a = b := by
  unfold NodeId.toStr at h
  have h' : idDigits a.level a.index = idDigits b.level b.index := by
    simpa using h
  have hlev : a.level = b.level := by
    have := congrArg List.length h'
    rwa [idDigits_length, idDigits_length] at this
  cases a with
  | mk al ai =>
    cases b with
    | mk bl bi =>
      simp only at hlev ha hb h'
      subst hlev
      have := idDigits_inj al ai bi ha hb h'
      simp [this]

theorem nodeMetaOf_inj {m n : Node}
    (hm : m.id.index < 4 ^ m.id.level) (hn : n.id.index < 4 ^ n.id.level)
    (h : nodeMetaOf m = nodeMetaOf n) : m = n := by
  unfold nodeMetaOf at h
  simp only [NodeMeta.mk.injEq, BoundingRect.mk.injEq] at h
  obtain ⟨hid, hx, hy, he⟩ := h
  have hid' : m.id = n.id := toStr_inj hm hn hid
  cases m with
  | mk mid mrect =>
    cases n with
    | mk nid nrect =>
      simp only [Node.mk.injEq]
      refine ⟨hid', ?_⟩
      cases mrect with
      | mk mmin medge =>
        cases nrect with
        | mk nmin nedge =>
          simp only [Rect.mk.injEq]
          simp only at hx hy he
          exact ⟨Prod.ext hx hy, he⟩

theorem traverseLoop_eq_collect {F : Type} (fm : FrustumModel F) (fr : F)
    (meta : Meta) (level : Nat) :
    ∀ (fuel : Nat) (stack : List Node) (result : List NodeMeta),
      (∀ n ∈ stack, n.id.level ≤ level) →
      ((stack.map fun n => loopCost (level - n.id.level)).sum ≤ fuel) →
      traverseLoop fm fr meta level fuel stack result
        = result ++ stack.flatMap fun n => collect fm fr meta level (level - n.id.level) n := by
  intro fuel
  induction fuel with
  | zero =>
    intro stack result hlev hcost
    cases stack with
    | nil => simp [traverseLoop]
    | cons n rest =>
      exfalso
      have := loopCost_pos (level - n.id.level)
      simp only [List.map_cons, List.sum_cons, Nat.le_zero] at hcost
      omega
  | succ fuel ih =>
    intro stack result hlev hcost
    cases stack with
    | nil => simp [traverseLoop]
    | cons n rest =>
      simp only [List.map_cons, List.sum_cons] at hcost
      have hlevn : n.id.level ≤ level := hlev n (List.mem_cons_self n rest)
      have hlevr : ∀ x ∈ rest, x.id.level ≤ level :=
        fun x hx => hlev x (List.mem_cons_of_mem _ hx)
      simp only [traverseLoop]
      by_cases hp : fm.contains fr (nodeAabb n) = Relation.Out ∨ n.id ∉ meta.nodes
      · rw [if_pos hp]
        rw [ih rest result hlevr (by have := loopCost_pos (level - n.id.level); omega)]
        have hcol : collect fm fr meta level (level - n.id.level) n = [] := by
          unfold collect
          rw [if_pos hp]
        simp [hcol]
      · rw [if_neg hp]
        by_cases he : n.level = level
        · rw [if_pos he]
          rw [ih rest (result ++ [nodeMetaOf n]) hlevr
            (by have := loopCost_pos (level - n.id.level); omega)]
          have hcol : collect fm fr meta level (level - n.id.level) n = [nodeMetaOf n] := by
            unfold collect
            rw [if_neg hp, if_pos he]
          simp [hcol]
        · rw [if_neg he]
          have hlt : n.id.level < level := by
            have : n.id.level ≠ level := by simpa [Node.level] using he
            omega
          obtain ⟨d, hd⟩ : ∃ d, level - n.id.level = d + 1 :=
            ⟨level - n.id.level - 1, by omega⟩
          have hstep : ∀ i : Fin 4, level - (n.get_child i).id.level = d := by
            intro i
            rw [get_child_level]
            omega
          have hklev : ∀ x ∈ kidsRev n, x.id.level ≤ level := by
            intro x hx
            rcases mem_kidsRev.mp hx with ⟨i, rfl⟩
            rw [get_child_level]
            omega
          rw [kids_push]
          rw [ih (kidsRev n ++ rest) result
            (by
              intro x hx
              rcases List.mem_append.mp hx with hx | hx
              · exact hklev x hx
              · exact hlevr x hx)
            (by
              simp only [List.map_append, List.sum_append, kidsRev_eq, List.map_cons,
                List.map_nil, List.sum_cons, List.sum_nil, hstep]
              have hc1 : loopCost (level - n.id.level) = 1 + 4 * loopCost d := by
                rw [hd, loopCost]
              omega)]
          have hcol : collect fm fr meta level (level - n.id.level) n
              = (kidsRev n).flatMap fun c => collect fm fr meta level d c := by
            conv_lhs => rw [hd]; unfold collect
            rw [if_neg hp, if_neg he]
          have hch : ((kidsRev n ++ rest).flatMap fun c =>
                collect fm fr meta level (level - c.id.level) c)
              = ((kidsRev n).flatMap fun c => collect fm fr meta level d c)
                ++ rest.flatMap fun c => collect fm fr meta level (level - c.id.level) c := by
            rw [List.flatMap_append]
            congr 1
            simp only [kidsRev_eq, List.flatMap_cons, List.flatMap_nil, hstep]
          rw [hch, List.flatMap_cons, hcol]

theorem collect_pruned {F : Type} (fm : FrustumModel F) (fr : F) (meta : Meta)
    (level d : Nat) (n : Node)
    (hp : fm.contains fr (nodeAabb n) = Relation.Out ∨ n.id ∉ meta.nodes) :
    collect fm fr meta level d n = [] := by
  conv_lhs => unfold collect
  rw [if_pos hp]

theorem collect_emit {F : Type} (fm : FrustumModel F) (fr : F) (meta : Meta)
    (level d : Nat) (n : Node)
    (hp : ¬(fm.contains fr (nodeAabb n) = Relation.Out ∨ n.id ∉ meta.nodes))
    (he : n.level = level) :
    collect fm fr meta level d n = [nodeMetaOf n] := by
  conv_lhs => unfold collect
  rw [if_neg hp, if_pos he]

theorem collect_floor {F : Type} (fm : FrustumModel F) (fr : F) (meta : Meta)
    (level : Nat) (n : Node)
    (hp : ¬(fm.contains fr (nodeAabb n) = Relation.Out ∨ n.id ∉ meta.nodes))
    (he : ¬(n.level = level)) :
    collect fm fr meta level 0 n = [] := by
  conv_lhs => unfold collect
  rw [if_neg hp, if_neg he]

theorem collect_expand {F : Type} (fm : FrustumModel F) (fr : F) (meta : Meta)
    (level d : Nat) (n : Node)
    (hp : ¬(fm.contains fr (nodeAabb n) = Relation.Out ∨ n.id ∉ meta.nodes))
    (he : ¬(n.level = level)) :
    collect fm fr meta level (d + 1) n
      = (kidsRev n).flatMap fun c => collect fm fr meta level d c := by
  conv_lhs => unfold collect
  rw [if_neg hp, if_neg he]

theorem live_of_not_pruned {F : Type} {fm : FrustumModel F} {fr : F} {meta : Meta}
    {n : Node}
    (hp : ¬(fm.contains fr (nodeAabb n) = Relation.Out ∨ n.id ∉ meta.nodes)) :
    live fm fr meta n := by
  rw [not_or, not_not] at hp
  exact hp

theorem not_pruned_of_live {F : Type} {fm : FrustumModel F} {fr : F} {meta : Meta}
    {n : Node} (h : live fm fr meta n) :
    ¬(fm.contains fr (nodeAabb n) = Relation.Out ∨ n.id ∉ meta.nodes) := by
  rw [not_or, not_not]
  exact h

theorem collect_sound {F : Type} (fm : FrustumModel F) (fr : F) (meta : Meta)
    (level : Nat) :
    ∀ (d : Nat) (n : Node) (x : NodeMeta), x ∈ collect fm fr meta level d n →
      ∃ q : List (Fin 4), q.length ≤ d ∧ n.id.level + q.length = level ∧
        x = nodeMetaOf (descend n q) ∧
        ∀ k ≤ q.length, live fm fr meta (descend n (q.take k)) := by
  intro d
  induction d with
  | zero =>
    intro n x hx
    by_cases hp : fm.contains fr (nodeAabb n) = Relation.Out ∨ n.id ∉ meta.nodes
    · rw [collect_pruned fm fr meta level 0 n hp] at hx
      exact absurd hx (List.not_mem_nil x)
    · by_cases he : n.level = level
      · rw [collect_emit fm fr meta level 0 n hp he] at hx
        simp only [List.mem_singleton] at hx
        subst hx
        refine ⟨[], by simp, by simpa [Node.level] using he, by simp [descend], ?_⟩
        intro k hk
        have : k = 0 := by simpa using hk
        subst this
        exact live_of_not_pruned hp
      · rw [collect_floor fm fr meta level n hp he] at hx
        exact absurd hx (List.not_mem_nil x)
  | succ d ih =>
    intro n x hx
    by_cases hp : fm.contains fr (nodeAabb n) = Relation.Out ∨ n.id ∉ meta.nodes
    · rw [collect_pruned fm fr meta level (d + 1) n hp] at hx
      exact absurd hx (List.not_mem_nil x)
    · by_cases he : n.level = level
      · rw [collect_emit fm fr meta level (d + 1) n hp he] at hx
        simp only [List.mem_singleton] at hx
        subst hx
        refine ⟨[], by simp, by simpa [Node.level] using he, by simp [descend], ?_⟩
        intro k hk
        have : k = 0 := by simpa using hk
        subst this
        exact live_of_not_pruned hp
      · rw [collect_expand fm fr meta level d n hp he] at hx
        rw [List.mem_flatMap] at hx
        obtain ⟨c, hc, hxc⟩ := hx
        obtain ⟨i, rfl⟩ := mem_kidsRev.mp hc
        obtain ⟨q, hq1, hq2, hq3, hq4⟩ := ih (n.get_child i) x hxc
        rw [get_child_level] at hq2
        refine ⟨i :: q, by simpa using hq1, by simp only [List.length_cons]; omega,
          by simpa [descend] using hq3, ?_⟩
        intro k hk
        cases k with
        | zero => exact live_of_not_pruned hp
        | succ k' =>
          rw [show (i :: q).take (k' + 1) = i :: q.take k' from rfl]
          simp only [descend]
          exact hq4 k' (by simpa using hk)

theorem collect_complete {F : Type} (fm : FrustumModel F) (fr : F) (meta : Meta)
    (level : Nat) :
    ∀ (q : List (Fin 4)) (n : Node),
      n.id.level + q.length = level →
      (∀ k ≤ q.length, live fm fr meta (descend n (q.take k))) →
      nodeMetaOf (descend n q) ∈ collect fm fr meta level q.length n := by
  intro q
  induction q with
  | nil =>
    intro n hlev hlive
    have h0 : live fm fr meta n := hlive 0 (by simp)
    simp only [List.length_nil]
    rw [collect_emit fm fr meta level 0 n (not_pruned_of_live h0)
      (by simpa [Node.level] using hlev)]
    simp [descend]
  | cons i q ih =>
    intro n hlev hlive
    have h0 : live fm fr meta n := hlive 0 (by simp)
    simp only [List.length_cons] at hlev
    have hne : ¬(n.level = level) := by
      simp only [Node.level]
      omega
    rw [show (i :: q).length = q.length + 1 from rfl,
      collect_expand fm fr meta level q.length n (not_pruned_of_live h0) hne]
    rw [List.mem_flatMap]
    refine ⟨n.get_child i, mem_kidsRev.mpr ⟨i, rfl⟩, ?_⟩
    have hmem := ih (n.get_child i)
      (by rw [get_child_level]; omega)
      (by
        intro k hk
        have := hlive (k + 1) (by simp only [List.length_cons]; omega)
        rw [show (i :: q).take (k + 1) = i :: q.take k from rfl] at this
        simpa [descend] using this)
    simpa [descend] using hmem

theorem live_of_target {F : Type} (fm : FrustumModel F) (fr : F) (meta : Meta)
    (hclosure : ∀ id ∈ meta.nodes, 0 < id.level →
      NodeId.mk (id.level - 1) (id.index / 4) ∈ meta.nodes)
    (hmono : ∀ (n : Node) (c : Fin 4), fm.contains fr (nodeAabb n) = Relation.Out →
      fm.contains fr (nodeAabb (n.get_child c)) = Relation.Out) :
    ∀ (q : List (Fin 4)) (n : Node), live fm fr meta (descend n q) →
      ∀ k ≤ q.length, live fm fr meta (descend n (q.take k)) := by
  intro q
  induction q with
  | nil =>
    intro n h k hk
    have : k = 0 := by simpa using hk
    subst this
    exact h
  | cons i q ih =>
    intro n h k hk
    have hchild : ∀ k' ≤ q.length, live fm fr meta (descend (n.get_child i) (q.take k')) :=
      ih (n.get_child i) (by simpa [descend] using h)
    cases k with
    | zero =>
      have hc0 : live fm fr meta (n.get_child i) := by
        simpa [descend] using hchild 0 (by simp)
      constructor
      · intro hout
        exact hc0.1 (hmono n i hout)
      · have hmem := hclosure (n.get_child i).id hc0.2
          (by rw [get_child_level]; omega)
        have h1 : (n.get_child i).id.level - 1 = n.id.level := by
          rw [get_child_level]
          omega
        have h2 : (n.get_child i).id.index / 4 = n.id.index := by
          rw [get_child_index]
          have := i.isLt
          omega
        rw [h1, h2] at hmem
        exact hmem
    | succ k' =>
      rw [show (i :: q).take (k' + 1) = i :: q.take k' from rfl]
      simp only [descend]
      exact hchild k' (by simpa using hk)

theorem get_child_index_lt {n : Node} (hidx : n.id.index < 4 ^ n.id.level) (i : Fin 4) :
    (n.get_child i).id.index < 4 ^ (n.get_child i).id.level := by
  rw [get_child_index, get_child_level, pow_succ]
  have := i.isLt
  omega

theorem collect_id_mem {F : Type} (fm : FrustumModel F) (fr : F) (meta : Meta)
    (level d : Nat) (c : Node) (hc : c.id.index < 4 ^ c.id.level) (s : Str)
    (hs : s ∈ (collect fm fr meta level d c).map fun x => x.id) :
    ∃ j : Nat, s = NodeId.toStr ⟨level, j⟩ ∧
      c.id.index * 4 ^ (level - c.id.level) ≤ j ∧
      j < (c.id.index + 1) * 4 ^ (level - c.id.level) ∧ j < 4 ^ level := by
  rw [List.mem_map] at hs
  obtain ⟨x, hx, rfl⟩ := hs
  obtain ⟨q, _, hq2, hq3, _⟩ := collect_sound fm fr meta level d c x hx
  subst hq3
  have hql : level - c.id.level = q.length := by omega
  have hlev : (descend c q).id.level = level := by rw [descend_level]; omega
  have hidx : (descend c q).id.index = c.id.index * 4 ^ q.length + pathVal q :=
    descend_index q c
  refine ⟨(descend c q).id.index, ?_, ?_, ?_, ?_⟩
  · show (descend c q).id.toStr = _
    congr 1
    cases hd : (descend c q).id with
    | mk dl di => rw [hd] at hlev; simp at hlev ⊢; omega
  · rw [hidx, hql]
    omega
  · rw [hidx, hql, Nat.add_mul, Nat.one_mul]
    have := pathVal_lt q
    omega
  · have hstep : (c.id.index + 1) * 4 ^ q.length ≤ 4 ^ level := by
      calc (c.id.index + 1) * 4 ^ q.length ≤ 4 ^ c.id.level * 4 ^ q.length :=
            Nat.mul_le_mul_right _ (by omega)
        _ = 4 ^ (c.id.level + q.length) := by rw [pow_add]
        _ = 4 ^ level := by rw [hq2]
    have := pathVal_lt q
    rw [hidx]
    have h1 : c.id.index * 4 ^ q.length + pathVal q < (c.id.index + 1) * 4 ^ q.length := by
      rw [Nat.add_mul, Nat.one_mul]
      omega
    omega

theorem collect_child_disjoint {F : Type} (fm : FrustumModel F) (fr : F) (meta : Meta)
    (level d : Nat) (n : Node) (hidx : n.id.index < 4 ^ n.id.level)
    {i i' : Fin 4} (hne : i ≠ i') :
    List.Disjoint ((collect fm fr meta level d (n.get_child i)).map fun x => x.id)
      ((collect fm fr meta level d (n.get_child i')).map fun x => x.id) := by
  intro s hsi hsi'
  obtain ⟨j, hj1, hj2, hj3, hj4⟩ := collect_id_mem fm fr meta level d (n.get_child i)
    (get_child_index_lt hidx i) s hsi
  obtain ⟨j', hj1', hj2', hj3', hj4'⟩ := collect_id_mem fm fr meta level d (n.get_child i')
    (get_child_index_lt hidx i') s hsi'
  have hid : (⟨level, j⟩ : NodeId) = ⟨level, j'⟩ :=
    toStr_inj (a := ⟨level, j⟩) (b := ⟨level, j'⟩) hj4 hj4' (by rw [← hj1, ← hj1'])
  have hjj : j = j' := by
    simpa [NodeId.mk.injEq] using hid
  subst hjj
  rw [get_child_index, get_child_level] at hj2 hj3
  rw [get_child_index, get_child_level] at hj2' hj3'
  have hii : i.val ≠ i'.val := fun h => hne (Fin.ext h)
  rcases Nat.lt_or_ge i.val i'.val with h | h
  · have hmul : (n.id.index * 4 + i.val + 1) * 4 ^ (level - (n.id.level + 1))
        ≤ (n.id.index * 4 + i'.val) * 4 ^ (level - (n.id.level + 1)) :=
      Nat.mul_le_mul_right _ (by omega)
    omega
  · have h' : i'.val < i.val := by omega
    have hmul : (n.id.index * 4 + i'.val + 1) * 4 ^ (level - (n.id.level + 1))
        ≤ (n.id.index * 4 + i.val) * 4 ^ (level - (n.id.level + 1)) :=
      Nat.mul_le_mul_right _ (by omega)
    omega

theorem collect_nodup {F : Type} (fm : FrustumModel F) (fr : F) (meta : Meta)
    (level : Nat) :
    ∀ (d : Nat) (n : Node), n.id.index < 4 ^ n.id.level →
      ((collect fm fr meta level d n).map fun x => x.id).Nodup := by
  intro d
  induction d with
  | zero =>
    intro n hidx
    by_cases hp : fm.contains fr (nodeAabb n) = Relation.Out ∨ n.id ∉ meta.nodes
    · simp [collect_pruned fm fr meta level 0 n hp]
    · by_cases he : n.level = level
      · simp [collect_emit fm fr meta level 0 n hp he]
      · simp [collect_floor fm fr meta level n hp he]
  | succ d ih =>
    intro n hidx
    by_cases hp : fm.contains fr (nodeAabb n) = Relation.Out ∨ n.id ∉ meta.nodes
    · simp [collect_pruned fm fr meta level (d + 1) n hp]
    · by_cases he : n.level = level
      · simp [collect_emit fm fr meta level (d + 1) n hp he]
      · rw [collect_expand fm fr meta level d n hp he, List.map_flatMap,
          List.nodup_flatMap]
        constructor
        · intro c hc
          obtain ⟨i, rfl⟩ := mem_kidsRev.mp hc
          exact ih (n.get_child i) (get_child_index_lt hidx i)
        · rw [kidsRev_eq]
          refine List.Pairwise.cons ?_ (List.Pairwise.cons ?_
            (List.Pairwise.cons ?_ (List.Pairwise.cons ?_ List.Pairwise.nil)))
          · intro c' hc'
            simp only [List.mem_cons, List.not_mem_nil, or_false] at hc'
            rcases hc' with rfl | rfl | rfl <;>
              exact collect_child_disjoint fm fr meta level d n hidx (by decide)
          · intro c' hc'
            simp only [List.mem_cons, List.not_mem_nil, or_false] at hc'
            rcases hc' with rfl | rfl <;>
              exact collect_child_disjoint fm fr meta level d n hidx (by decide)
          · intro c' hc'
            simp only [List.mem_singleton] at hc'
            subst hc'
            exact collect_child_disjoint fm fr meta level d n hidx (by decide)
          · intro c' hc'
            exact absurd hc' (List.not_mem_nil c')

theorem get_nodes_eq_collect {F : Type} (fm : FrustumModel F) (m : Meta) (level : Nat)
    (entries : List ℚ) (fr : F) (res : List NodeMeta)
    (hfr : fm.from_matrix4 entries = some fr)
    (hok : m.get_nodes_for_level fm level entries = .ok res) :
    res = collect fm fr m level level
      (Node.from_node_id_and_root_bounding_rect NodeId.root m.bounding_rect) := by
  unfold Meta.get_nodes_for_level at hok
  by_cases hlen : entries.length ≠ 4 * 4
  · rw [if_pos hlen] at hok
    cases hok
  · rw [if_neg hlen, hfr] at hok
    have heq := traverseLoop_eq_collect fm fr m level (loopCost level)
      [Node.from_node_id_and_root_bounding_rect NodeId.root m.bounding_rect] []
      (by
        intro x hx
        simp only [List.mem_singleton] at hx
        subst hx
        exact Nat.zero_le level)
      (by simp [Node.from_node_id_and_root_bounding_rect, NodeId.root])
    have hok2 : Except.ok (traverseLoop fm fr m level (loopCost level)
        [Node.from_node_id_and_root_bounding_rect NodeId.root m.bounding_rect] [])
        = Except.ok res := hok
    rw [heq] at hok2
    simp only [Except.ok.injEq] at hok2
    rw [← hok2]
    simp [Node.from_node_id_and_root_bounding_rect, NodeId.root]

end Xray

/-! ## Theorems -/

/-- Claim C4 (counterexample): the join rule only inspects the prefix's
last and the suffix's first character, never the key, so a key with a
leading separator yields two separators at the prefix/key boundary: with
prefix `a`, suffix `b` and key `/k` the code produces `a//k/b`, not the
single-separator join `a/k/b`. -/
theorem get_octree_address_cex :
    (Viewer.OctreeKeyParams.get_octree_address ⟨str "a", str "b"⟩ (str "/k")
        : Except Unit Str)
      = .ok (str "a//k/b") ∧
    Viewer.specJoinAddress (str "a") (str "/k") (str "b") = str "a/k/b" ∧
    (Viewer.OctreeKeyParams.get_octree_address ⟨str "a", str "b"⟩ (str "/k")
        : Except Unit Str)
      ≠ .ok (Viewer.specJoinAddress (str "a") (str "/k") (str "b")) := by
  refine ⟨by decide, by decide, by decide⟩

/-- Claim C4 (amended): provided the key neither starts nor ends with a
separator, the prefix ends with at most one separator, and the suffix
starts with at most one separator, `get_octree_address` produces exactly
one separator at the prefix/key boundary and exactly one at the key/suffix
boundary. -/
theorem get_octree_address_one_sep {E : Type} (kp : Viewer.OctreeKeyParams) (k : Str)
    (hp : Viewer.trailingSlashCount kp.prefixStr ≤ 1)
    (hs : Viewer.leadingSlashCount kp.suffixStr ≤ 1)
    (hk1 : Viewer.startsWithChar k '/' = false)
    (hk2 : Viewer.endsWithChar k '/' = false) :
    (Viewer.OctreeKeyParams.get_octree_address kp k : Except E Str)
      = .ok (Viewer.specJoinAddress kp.prefixStr k kp.suffixStr) := by
  unfold Viewer.OctreeKeyParams.get_octree_address Viewer.addressStr Viewer.specJoinAddress
  rw [Viewer.dts_eq_self hk2, Viewer.dls_eq_self hk1]
  simp only [List.append_assoc]
  rw [Viewer.prefix_join _ hp, Viewer.suffix_join _ hs]
  simp

/-- Claim C4 (witness): the amended join rule evaluated with prefix `a/`,
suffix `/b`, key `k`, giving `a/k/b`. -/
theorem get_octree_address_one_sep_witness :
    (Viewer.OctreeKeyParams.get_octree_address ⟨str "a/", str "/b"⟩ (str "k")
        : Except Unit Str)
      = .ok (Viewer.specJoinAddress (str "a/") (str "k") (str "/b")) ∧
    Viewer.specJoinAddress (str "a/") (str "k") (str "/b") = str "a/k/b" :=
  ⟨get_octree_address_one_sep ⟨str "a/", str "/b"⟩ (str "k")
    (by decide) (by decide) (by decide) (by decide), by decide⟩

/-- Claim C8: `WebMercatorRect::from_zoomed_coordinates` is independent of
its argument order, because it normalizes the two points with the
component-wise minimum as the north-west and the component-wise maximum as
the south-east corner. -/
theorem from_zoomed_coordinates_comm (a b : Merc.Vec2) (z : Nat) :
    Merc.WebMercatorRect.from_zoomed_coordinates a b z
      = Merc.WebMercatorRect.from_zoomed_coordinates b a z := by
  unfold Merc.WebMercatorRect.from_zoomed_coordinates
  rw [show Merc.inf2 a b = Merc.inf2 b a from by simp [Merc.inf2, min_comm],
    show Merc.sup2 a b = Merc.sup2 b a from by simp [Merc.sup2, max_comm]]

/-- Claim C9: `WebMercatorRect::contains` holds exactly when the point's
projected Web-Mercator coordinate lies in the half-open box
`[north_west, south_east)`: north-west bound inclusive component-wise,
south-east bound exclusive component-wise. -/
theorem contains_iff_half_open (gc : Merc.GeoConv) (r : Merc.WebMercatorRect)
    (p : Merc.Point3q) :
    Merc.WebMercatorRect.contains gc r p = true ↔
      (r.north_west.v.x ≤ (gc.wgsToWmc (gc.ecefToWgs p)).v.x ∧
        r.north_west.v.y ≤ (gc.wgsToWmc (gc.ecefToWgs p)).v.y) ∧
      ((gc.wgsToWmc (gc.ecefToWgs p)).v.x < r.south_east.v.x ∧
        (gc.wgsToWmc (gc.ecefToWgs p)).v.y < r.south_east.v.y) := by
  simp [Merc.WebMercatorRect.contains, Merc.partial_le, Merc.partial_lt,
    Bool.and_eq_true, decide_eq_true_eq]

/-- Claim C2 (failing input): a persisted meta whose version is more than
one generation old (here version 1) does not produce a recoverable
`UnsupportedVersion` result — `Meta::from_proto` hits its `panic!` arm and
aborts the process. -/
theorem from_proto_version1_panics :
    Xray.Meta.from_proto ⟨1, [], none, 0, 0⟩
      = Xray.RustResult.panicked (str "Invalid version. We only support 3.") := by
  decide

/-- Claim C10: the round trip of a `Meta` through the persisted encoding
keeps the node-existence set, the tile size and the deepest level, while
`to_proto` leaves the bounding-rect field unset, so `from_proto` falls
back to the protobuf default and the original bounding rectangle is not
restored (the result's rectangle is the zero rectangle whatever the input
was). The hypotheses record the `u8` ranges the Rust `Meta` fields have by
construction. -/
theorem from_proto_to_proto (m : Xray.Meta)
    (hl : ∀ id ∈ m.nodes, id.level < 256) (hd : m.deepest_level < 256) :
    m.to_proto.bounding_rect = none ∧
    Xray.Meta.from_proto m.to_proto
      = Xray.RustResult.ok ⟨m.nodes, ⟨(0, 0), 0⟩, m.tile_size, m.deepest_level⟩ := by
  refine ⟨rfl, ?_⟩
  have hnodes : (m.nodes.map fun id => Xray.ProtoNodeId.mk id.level id.index).map
      (fun n => Xray.NodeId.mk (n.level % 256) n.index) = m.nodes := by
    rw [List.map_map]
    conv_rhs => rw [← List.map_id m.nodes]
    refine List.map_congr_left fun id hid => ?_
    cases id with
    | mk l i => simp [Nat.mod_eq_of_lt (hl _ hid)]
  unfold Xray.Meta.from_proto Xray.Meta.to_proto
  simp [Xray.CURRENT_VERSION, Xray.ProtoMeta.get_bounding_rect,
    Xray.ProtoRect.default, hnodes, Nat.mod_eq_of_lt hd]

/-- Claim C7: whenever `get_nodes_for_level` succeeds, every returned
entry carries the string form of a node id that is present in the Meta's
node-existence set, and no two returned entries carry the same node id. -/
theorem get_nodes_for_level_no_ghosts {F : Type} (fm : Xray.FrustumModel F)
    (m : Xray.Meta) (level : Nat) (entries : List ℚ) (fr : F)
    (res : List Xray.NodeMeta)
    (hfr : fm.from_matrix4 entries = some fr)
    (hok : m.get_nodes_for_level fm level entries = .ok res) :
    (∀ x ∈ res, ∃ nid : Xray.NodeId, nid ∈ m.nodes ∧ x.id = nid.toStr) ∧
    (res.map fun x => x.id).Nodup := by
  have hres := Xray.get_nodes_eq_collect fm m level entries fr res hfr hok
  constructor
  · intro x hx
    rw [hres] at hx
    obtain ⟨q, _, _, hq3, hq4⟩ := Xray.collect_sound fm fr m level level _ x hx
    have hlive := hq4 q.length (le_refl _)
    rw [List.take_length] at hlive
    exact ⟨_, hlive.2, by rw [hq3]; rfl⟩
  · rw [hres]
    exact Xray.collect_nodup fm fr m level level _ (by simp
      [Xray.Node.from_node_id_and_root_bounding_rect, Xray.NodeId.root])

/-- Claim C7 (witness): the traversal evaluated on a concrete one-node
dataset under the always-`Cross` view model. -/
theorem get_nodes_for_level_no_ghosts_witness :
    (∀ x ∈ [Xray.nodeMetaOf (Xray.Node.from_node_id_and_root_bounding_rect
        Xray.NodeId.root ⟨(0, 0), 1⟩)],
      ∃ nid : Xray.NodeId, nid ∈ [Xray.NodeId.mk 0 0] ∧ x.id = nid.toStr) ∧
    (([Xray.nodeMetaOf (Xray.Node.from_node_id_and_root_bounding_rect
        Xray.NodeId.root ⟨(0, 0), 1⟩)]).map fun x => x.id).Nodup :=
  get_nodes_for_level_no_ghosts Xray.constCrossFM ⟨[⟨0, 0⟩], ⟨(0, 0), 1⟩, 256, 0⟩
    0 Xray.entries16 () [Xray.nodeMetaOf (Xray.Node.from_node_id_and_root_bounding_rect
      Xray.NodeId.root ⟨(0, 0), 1⟩)] rfl (by decide)

/-- Claim C1 (counterexample): the existence-set pruning cuts whole
subtrees, so a node at the target level that is in the existence set and
whose box is not disjoint from the view volume is still dropped when an
ancestor is absent from the set: with the root absent and only node
`(1, 0)` present, the traversal returns the empty list. -/
theorem get_nodes_exactly_cex :
    Xray.Meta.get_nodes_for_level Xray.constCrossFM ⟨[⟨1, 0⟩], ⟨(0, 0), 1⟩, 256, 1⟩
        1 Xray.entries16 = .ok [] ∧
    (Xray.descend (Xray.Node.from_node_id_and_root_bounding_rect Xray.NodeId.root
      ⟨(0, 0), 1⟩) [0]).id.level = 1 ∧
    (Xray.descend (Xray.Node.from_node_id_and_root_bounding_rect Xray.NodeId.root
      ⟨(0, 0), 1⟩) [0]).id ∈ [Xray.NodeId.mk 1 0] ∧
    Xray.constCrossFM.contains () (Xray.nodeAabb (Xray.descend
      (Xray.Node.from_node_id_and_root_bounding_rect Xray.NodeId.root ⟨(0, 0), 1⟩)
      [0])) ≠ Xray.Relation.Out ∧
    Xray.nodeMetaOf (Xray.descend (Xray.Node.from_node_id_and_root_bounding_rect
      Xray.NodeId.root ⟨(0, 0), 1⟩) [0]) ∉ ([] : List Xray.NodeMeta) := by
  decide

/-- Claim C1 (amended): provided the existence set contains every
ancestor of each of its members and the view test classifies every child
box as `Out` whenever its parent's box is `Out` (Out-monotonicity along
the nesting subdivision — true of a geometric frustum test on nested
boxes, but not visible to the abstract view model), a successful
`get_nodes_for_level` returns exactly the nodes at the target level whose
box relation is not `Out` and whose id is in the existence set — each
such node appears, and nothing else does. -/
theorem get_nodes_exactly_amended {F : Type} (fm : Xray.FrustumModel F)
    (m : Xray.Meta) (level : Nat) (entries : List ℚ) (fr : F)
    (res : List Xray.NodeMeta)
    (hfr : fm.from_matrix4 entries = some fr)
    (hok : m.get_nodes_for_level fm level entries = .ok res)
    (hclosure : ∀ id ∈ m.nodes, 0 < Xray.NodeId.level id →
      Xray.NodeId.mk (id.level - 1) (id.index / 4) ∈ m.nodes)
    (hmono : ∀ (n : Xray.Node) (c : Fin 4),
      fm.contains fr (Xray.nodeAabb n) = Xray.Relation.Out →
      fm.contains fr (Xray.nodeAabb (n.get_child c)) = Xray.Relation.Out) :
    (∀ p : List (Fin 4), p.length = level →
      (Xray.nodeMetaOf (Xray.descend (Xray.Node.from_node_id_and_root_bounding_rect
          Xray.NodeId.root m.bounding_rect) p) ∈ res ↔
        fm.contains fr (Xray.nodeAabb (Xray.descend
          (Xray.Node.from_node_id_and_root_bounding_rect Xray.NodeId.root
            m.bounding_rect) p)) ≠ Xray.Relation.Out ∧
        (Xray.descend (Xray.Node.from_node_id_and_root_bounding_rect Xray.NodeId.root
          m.bounding_rect) p).id ∈ m.nodes)) ∧
    (∀ x ∈ res, ∃ p : List (Fin 4), p.length = level ∧
      x = Xray.nodeMetaOf (Xray.descend (Xray.Node.from_node_id_and_root_bounding_rect
        Xray.NodeId.root m.bounding_rect) p)) := by
  have hres := Xray.get_nodes_eq_collect fm m level entries fr res hfr hok
  have hr0 : (Xray.Node.from_node_id_and_root_bounding_rect Xray.NodeId.root
      m.bounding_rect).id.level = 0 := rfl
  have hri : (Xray.Node.from_node_id_and_root_bounding_rect Xray.NodeId.root
      m.bounding_rect).id.index = 0 := rfl
  have hbound : ∀ p : List (Fin 4),
      (Xray.descend (Xray.Node.from_node_id_and_root_bounding_rect Xray.NodeId.root
        m.bounding_rect) p).id.index
        < 4 ^ (Xray.descend (Xray.Node.from_node_id_and_root_bounding_rect
          Xray.NodeId.root m.bounding_rect) p).id.level := by
    intro p
    rw [Xray.descend_index, Xray.descend_level, hr0, hri]
    simpa using Xray.pathVal_lt p
  constructor
  · intro p hp
    constructor
    · intro hmem
      rw [hres] at hmem
      obtain ⟨q, _, hq2, hq3, hq4⟩ := Xray.collect_sound fm fr m level level _ _ hmem
      have hnode : Xray.descend (Xray.Node.from_node_id_and_root_bounding_rect
          Xray.NodeId.root m.bounding_rect) p
          = Xray.descend (Xray.Node.from_node_id_and_root_bounding_rect
            Xray.NodeId.root m.bounding_rect) q :=
        Xray.nodeMetaOf_inj (hbound p) (hbound q) hq3
      rw [hnode]
      have hlive := hq4 q.length (le_refl _)
      rw [List.take_length] at hlive
      exact ⟨hlive.1, hlive.2⟩
    · intro hcond
      rw [hres]
      have hlive : Xray.live fm fr m (Xray.descend
          (Xray.Node.from_node_id_and_root_bounding_rect Xray.NodeId.root
            m.bounding_rect) p) := ⟨hcond.1, hcond.2⟩
      have hpre := Xray.live_of_target fm fr m hclosure hmono p _ hlive
      have hin := Xray.collect_complete fm fr m level p _
        (by rw [hr0]; omega) hpre
      rwa [hp] at hin
  · intro x hx
    rw [hres] at hx
    obtain ⟨q, _, hq2, hq3, _⟩ := Xray.collect_sound fm fr m level level _ x hx
    rw [hr0] at hq2
    exact ⟨q, by omega, hq3⟩

/-- Claim C1 (witness): the amended exactness statement evaluated at the
root path of a concrete single-node dataset. -/
theorem get_nodes_exactly_amended_witness :
    Xray.nodeMetaOf (Xray.descend (Xray.Node.from_node_id_and_root_bounding_rect
        Xray.NodeId.root ⟨(0, 0), 1⟩) [])
        ∈ [Xray.nodeMetaOf (Xray.Node.from_node_id_and_root_bounding_rect
          Xray.NodeId.root ⟨(0, 0), 1⟩)] ↔
      Xray.constCrossFM.contains () (Xray.nodeAabb (Xray.descend
        (Xray.Node.from_node_id_and_root_bounding_rect Xray.NodeId.root
          ⟨(0, 0), 1⟩) [])) ≠ Xray.Relation.Out ∧
      (Xray.descend (Xray.Node.from_node_id_and_root_bounding_rect Xray.NodeId.root
        ⟨(0, 0), 1⟩) []).id ∈ [Xray.NodeId.mk 0 0] :=
  (get_nodes_exactly_amended Xray.constCrossFM ⟨[⟨0, 0⟩], ⟨(0, 0), 1⟩, 256, 0⟩ 0
    Xray.entries16 () [Xray.nodeMetaOf (Xray.Node.from_node_id_and_root_bounding_rect
      Xray.NodeId.root ⟨(0, 0), 1⟩)] rfl (by decide) (by decide)
    (fun n c h => nomatch h)).1 [] rfl

/-- Claim C3 (counterexample): when the configured default identifier is
itself the reserved alias `init_id`, resolution is not applied exactly
once — `load_octree` keeps resolving and never reaches the direct
processing of the default identifier (the recursion exhausts any fuel),
so it does not return the handle a direct request would produce. -/
theorem load_octree_alias_cex :
    Viewer.AppState.load_octree (fun _ => (.ok 0 : Except Unit Nat)) 5
        ⟨[], ⟨str "a", str "b"⟩, str "init_id"⟩ (str "init_id") = none ∧
    Viewer.AppState.load_octree (fun _ => (.ok 0 : Except Unit Nat)) 5
        ⟨[], ⟨str "a", str "b"⟩, str "init_id"⟩ (str "init_id")
      ≠ some (Viewer.AppState.load_direct (fun _ => (.ok 0 : Except Unit Nat))
          ⟨[], ⟨str "a", str "b"⟩, str "init_id"⟩ (str "init_id")) :=
  ⟨by decide, by decide⟩

/-- Claim C3 (amended): provided the configured default identifier is not
itself the reserved alias, requesting the alias key applies resolution
exactly once — one resolution step to the default identifier, after which
the request behaves exactly like the direct non-alias processing of the
default identifier, hence returns the same handle as requesting the
default identifier directly. -/
theorem load_octree_alias_once {O E : Type} (loader : Str → Except E O)
    (st : Viewer.AppState O) (fuel : Nat)
    (h : Viewer.aliasCond st.init_octree_id = false) :
    Viewer.AppState.load_octree loader (fuel + 2) st (str "init_id")
      = Viewer.AppState.load_octree loader (fuel + 1) st st.init_octree_id ∧
    Viewer.AppState.load_octree loader (fuel + 1) st st.init_octree_id
      = some (Viewer.AppState.load_direct loader st st.init_octree_id) :=
  ⟨Viewer.load_octree_alias_step loader st (str "init_id") (fuel + 1) (by decide),
    Viewer.load_octree_direct_step loader st st.init_octree_id fuel h⟩

/-- Claim C3 (witness): alias resolution evaluated on a concrete state
whose default identifier is `x`. -/
theorem load_octree_alias_once_witness :
    Viewer.AppState.load_octree (fun _ => (.ok 7 : Except Unit Nat)) 2
        ⟨[], ⟨str "a", str "b"⟩, str "x"⟩ (str "init_id")
      = Viewer.AppState.load_octree (fun _ => (.ok 7 : Except Unit Nat)) 1
        ⟨[], ⟨str "a", str "b"⟩, str "x"⟩ (str "x") ∧
    Viewer.AppState.load_octree (fun _ => (.ok 7 : Except Unit Nat)) 1
        ⟨[], ⟨str "a", str "b"⟩, str "x"⟩ (str "x")
      = some (Viewer.AppState.load_direct (fun _ => (.ok 7 : Except Unit Nat))
          ⟨[], ⟨str "a", str "b"⟩, str "x"⟩ (str "x")) :=
  load_octree_alias_once (fun _ => (.ok 7 : Except Unit Nat))
    ⟨[], ⟨str "a", str "b"⟩, str "x"⟩ 0 (by decide)

/-- Claim C5: starting from an empty cache, the first `load_octree` call
for a key (whose resolution is not itself the alias and whose resolved
address the loader answers with a handle) invokes the loader exactly once
and caches the handle; a second call with the same key invokes the loader
zero further times and returns the same handle, with the cache state
unchanged. -/
theorem load_octree_loads_once {O E : Type} (loader : Str → Except E O)
    (st : Viewer.AppState O) (key : Str) (t : O) (fuel : Nat)
    (hempty : st.octree_map = [])
    (halias : Viewer.aliasCond (Viewer.resolveKey st key) = false)
    (hload : loader (Viewer.addressStr st.key_params (Viewer.resolveKey st key))
      = .ok t) :
    Viewer.AppState.load_octree loader (fuel + 2) st key
      = some (.ok t,
          { st with octree_map :=
              Viewer.mapInsert st.octree_map (Viewer.resolveKey st key) t }, 1) ∧
    Viewer.AppState.load_octree loader (fuel + 2)
        { st with octree_map :=
            Viewer.mapInsert st.octree_map (Viewer.resolveKey st key) t } key
      = some (.ok t,
          { st with octree_map :=
              Viewer.mapInsert st.octree_map (Viewer.resolveKey st key) t }, 0) := by
  have hmiss : Viewer.mapGet st.octree_map (Viewer.resolveKey st key) = none := by
    rw [hempty]; rfl
  constructor
  · by_cases hk : Viewer.aliasCond key = true
    · have hr : Viewer.resolveKey st key = st.init_octree_id := by
        simp [Viewer.resolveKey, hk]
      rw [Viewer.load_octree_alias_step loader st key (fuel + 1) hk,
        Viewer.load_octree_direct_step loader st st.init_octree_id fuel (hr ▸ halias),
        Viewer.load_direct_miss loader st st.init_octree_id (hr ▸ hmiss),
        Viewer.insert_octree_ok loader st st.init_octree_id t (hr ▸ hload), hr]
    · have hk' : Viewer.aliasCond key = false := by
        cases hq : Viewer.aliasCond key
        · rfl
        · exact absurd hq hk
      have hr : Viewer.resolveKey st key = key := by
        simp [Viewer.resolveKey, hk']
      rw [show fuel + 2 = (fuel + 1) + 1 from rfl,
        Viewer.load_octree_direct_step loader st key (fuel + 1) hk',
        Viewer.load_direct_miss loader st key (hr ▸ hmiss),
        Viewer.insert_octree_ok loader st key t (hr ▸ hload), hr]
  · set st' : Viewer.AppState O :=
      { st with octree_map :=
          Viewer.mapInsert st.octree_map (Viewer.resolveKey st key) t } with hst'
    have hhit : Viewer.mapGet st'.octree_map (Viewer.resolveKey st' key) = some t := by
      have : Viewer.resolveKey st' key = Viewer.resolveKey st key := by
        simp [Viewer.resolveKey, hst']
      rw [this, hst']
      exact Viewer.mapGet_mapInsert_self _ _ _
    by_cases hk : Viewer.aliasCond key = true
    · have hr : Viewer.resolveKey st' key = st'.init_octree_id := by
        simp [Viewer.resolveKey, hk]
      have halias' : Viewer.aliasCond st'.init_octree_id = false := by
        have : Viewer.resolveKey st key = st.init_octree_id := by
          simp [Viewer.resolveKey, hk]
        simpa [hst'] using this ▸ halias
      rw [Viewer.load_octree_alias_step loader st' key (fuel + 1) hk,
        Viewer.load_octree_direct_step loader st' st'.init_octree_id fuel halias',
        Viewer.load_direct_hit loader st' st'.init_octree_id t (hr ▸ hhit)]
    · have hk' : Viewer.aliasCond key = false := by
        cases hq : Viewer.aliasCond key
        · rfl
        · exact absurd hq hk
      have hr : Viewer.resolveKey st' key = key := by
        simp [Viewer.resolveKey, hk']
      rw [show fuel + 2 = (fuel + 1) + 1 from rfl,
        Viewer.load_octree_direct_step loader st' key (fuel + 1) hk',
        Viewer.load_direct_hit loader st' key t (hr ▸ hhit)]

/-- Claim C5 (witness): the load-once behaviour evaluated on a concrete
empty-cache state with a constant succeeding loader. -/
theorem load_octree_loads_once_witness :
    Viewer.AppState.load_octree (fun _ => (.ok 7 : Except Unit Nat)) 2
        ⟨[], ⟨str "a", str "b"⟩, str "x"⟩ (str "k")
      = some (.ok 7,
          { octree_map :=
              Viewer.mapInsert []
                (Viewer.resolveKey (⟨[], ⟨str "a", str "b"⟩, str "x"⟩
                  : Viewer.AppState Nat) (str "k")) 7,
            key_params := ⟨str "a", str "b"⟩, init_octree_id := str "x" }, 1) ∧
    Viewer.AppState.load_octree (fun _ => (.ok 7 : Except Unit Nat)) 2
        { octree_map :=
            Viewer.mapInsert []
              (Viewer.resolveKey (⟨[], ⟨str "a", str "b"⟩, str "x"⟩
                : Viewer.AppState Nat) (str "k")) 7,
          key_params := ⟨str "a", str "b"⟩, init_octree_id := str "x" } (str "k")
      = some (.ok 7,
          { octree_map :=
              Viewer.mapInsert []
                (Viewer.resolveKey (⟨[], ⟨str "a", str "b"⟩, str "x"⟩
                  : Viewer.AppState Nat) (str "k")) 7,
            key_params := ⟨str "a", str "b"⟩, init_octree_id := str "x" }, 0) :=
  load_octree_loads_once (fun _ => (.ok 7 : Except Unit Nat))
    ⟨[], ⟨str "a", str "b"⟩, str "x"⟩ (str "k") 7 0 rfl (by decide) rfl

/-- Claim C6: when the loader is actually consulted for a key — the
resolved key misses the cache (and is not itself the alias) — and the
loader fails for the resolved address, `load_octree` returns that load
error and the returned state is exactly the state before the call: no
cache entry is inserted or modified on failure. -/
theorem load_octree_fail_unchanged {O E : Type} (loader : Str → Except E O)
    (st : Viewer.AppState O) (key : Str) (e : E) (fuel : Nat)
    (halias : Viewer.aliasCond (Viewer.resolveKey st key) = false)
    (hmiss : Viewer.mapGet st.octree_map (Viewer.resolveKey st key) = none)
    (hload : loader (Viewer.addressStr st.key_params (Viewer.resolveKey st key))
      = .error e) :
    Viewer.AppState.load_octree loader (fuel + 2) st key
      = some (.error e, st, 1) := by
  by_cases hk : Viewer.aliasCond key = true
  · have hr : Viewer.resolveKey st key = st.init_octree_id := by
      simp [Viewer.resolveKey, hk]
    rw [Viewer.load_octree_alias_step loader st key (fuel + 1) hk,
      Viewer.load_octree_direct_step loader st st.init_octree_id fuel (hr ▸ halias),
      Viewer.load_direct_miss loader st st.init_octree_id (hr ▸ hmiss),
      Viewer.insert_octree_err loader st st.init_octree_id e (hr ▸ hload)]
  · have hk' : Viewer.aliasCond key = false := by
      cases hq : Viewer.aliasCond key
      · rfl
      · exact absurd hq hk
    have hr : Viewer.resolveKey st key = key := by
      simp [Viewer.resolveKey, hk']
    rw [show fuel + 2 = (fuel + 1) + 1 from rfl,
      Viewer.load_octree_direct_step loader st key (fuel + 1) hk',
      Viewer.load_direct_miss loader st key (hr ▸ hmiss),
      Viewer.insert_octree_err loader st key e (hr ▸ hload)]

/-- Claim C6 (witness): a failing loader evaluated on a concrete state:
the error is returned and the state is unchanged. -/
theorem load_octree_fail_unchanged_witness :
    Viewer.AppState.load_octree (fun _ => (.error 3 : Except Nat Nat)) 2
        ⟨[], ⟨str "a", str "b"⟩, str "x"⟩ (str "k")
      = some (.error 3, ⟨[], ⟨str "a", str "b"⟩, str "x"⟩, 1) :=
  load_octree_fail_unchanged (fun _ => (.error 3 : Except Nat Nat))
    ⟨[], ⟨str "a", str "b"⟩, str "x"⟩ (str "k") 3 0 (by decide) rfl rfl

/-- Claim C10 (witness): the round trip evaluated on a concrete meta. -/
theorem from_proto_to_proto_witness :
    Xray.Meta.from_proto (Xray.Meta.to_proto ⟨[⟨1, 2⟩], ⟨(3, 4), 5⟩, 7, 2⟩)
      = Xray.RustResult.ok ⟨[⟨1, 2⟩], ⟨(0, 0), 0⟩, 7, 2⟩ :=
  (from_proto_to_proto ⟨[⟨1, 2⟩], ⟨(3, 4), 5⟩, 7, 2⟩ (by decide) (by decide)).2
